import Mathlib

/-!
Shallow embedding of the lexical analyzer in src/lexer_rat25f.py.

The Python lexer is a class holding an immutable string "text" and a cursor
"self.i".  We embed it as pure functions over "text : List Char" and a cursor
"i : Nat".  Each Python method that can move the cursor returns its result
together with the new cursor value; recognizers that can fail return an
Option result paired with the cursor they leave behind (the Python code
restores "self.i" itself on every failing path, which the embedding reflects
by returning the entry cursor there).

Python's while-loops that advance the cursor one character at a time are
rendered as structural recursion over the remaining characters
("text.drop i"), threading the absolute cursor so that positions and
extracted substrings match the source exactly.
-/

inductive TokenType where
  | KEYWORD
  | IDENTIFIER
  | INTEGER
  | REAL
  | OPERATOR
  | SEPARATOR
  | STRING
  | COMMENT
  | EOF
  | UNKNOWN
  deriving DecidableEq

/-- KEYWORDS set from the source (lines 17-20). -/
def KEYWORDS : List (List Char) :=
  [String.toList "while", String.toList "if", String.toList "else",
   String.toList "for", String.toList "int", String.toList "float",
   String.toList "bool", String.toList "true", String.toList "false",
   String.toList "function", String.toList "return", String.toList "read",
   String.toList "write", String.toList "then", String.toList "fi",
   String.toList "do", String.toList "od"]

/-- SEPARATORS set (lines 22-24). -/
def SEPARATORS : List Char := ['(', ')', '{', '}', '[', ']', ',', ';', ':']

/-- MULTI_CHAR_OPS set (line 26), as two-character lists. -/
def MULTI_CHAR_OPS : List (List Char) :=
  [['<', '='], ['>', '='], ['=', '='], ['!', '='], ['&', '&'], ['|', '|']]

/-- SINGLE_CHAR_OPS set (line 27). -/
def SINGLE_CHAR_OPS : List Char := ['+', '-', '*', '/', '%', '=', '<', '>', '!']

/-- is_letter (line 29): ch.isalpha(), restricted to the ASCII letters the
language uses. -/
def is_letter (c : Char) : Bool := c.isAlpha

/-- is_digit (line 32): ch.isdigit() on the ASCII digits. -/
def is_digit (c : Char) : Bool := c.isDigit

/-- is_alnum (line 35): ch.isalnum() on ASCII letters and digits. -/
def is_alnum (c : Char) : Bool := c.isAlphanum

/-- Python str.isspace() on the ASCII whitespace characters. -/
def is_space (c : Char) : Bool :=
  c = ' ' || c = '\t' || c = '\n' || c = '\r' || c = '\x0b' || c = '\x0c'

/-- peek (lines 44-48): the character at position i, or None past the end
(Python returns the empty string "" as the sentinel). -/
def peekC (text : List Char) (i : Nat) : Option Char := text[i]?

/-- Applying a character predicate to a peeked character; the Python sentinel
"" fails isdigit/isalpha/isalnum/isspace, hence none maps to false. -/
def peek_is (p : Char → Bool) (text : List Char) (i : Nat) : Bool :=
  match peekC text i with
  | some c => p c
  | none => false

/-- A cursor loop "while not self.eof() and p(self.peek()): self.advance()",
rendered over the remaining characters with the absolute cursor threaded. -/
def scanAux (p : Char → Bool) : List Char → Nat → Nat
  | [], i => i
  | c :: cs, i => if p c then scanAux p cs (i + 1) else i

/-- The cursor position where such a loop started at position i stops. -/
def scanWhile (p : Char → Bool) (text : List Char) (i : Nat) : Nat :=
  scanAux p (text.drop i) i

/-- Python slice text[a:b]. -/
def substr (text : List Char) (a b : Nat) : List Char :=
  (text.drop a).take (b - a)

/-- skip_whitespace (lines 56-58). -/
def skip_whitespace (text : List Char) (i : Nat) : Nat :=
  scanWhile is_space text i

/-- The loop of the line-comment branch (lines 68-69): advance while not at
end of input and the current character is not a newline. -/
def line_scan (text : List Char) (i : Nat) : Nat :=
  scanWhile (fun ch => ch != '\n') text i

/-- The loop of the block-comment branch (lines 76-77): advance while not at
end of input and not looking at the two characters "*/".  The two-character
lookahead needs the next two remaining characters. -/
def block_aux : List Char → Nat → Nat
  | [], i => i
  | [_], i => i + 1
  | c1 :: c2 :: cs, i =>
    if c1 = '*' ∧ c2 = '/' then i else block_aux (c2 :: cs) (i + 1)

def block_scan (text : List Char) (i : Nat) : Nat :=
  block_aux (text.drop i) i

/-- skip_comments (lines 60-83): returns a COMMENT token and the new cursor
when a comment starts at i, otherwise none (cursor untouched). -/
def skip_comments (text : List Char) (i : Nat) :
    Option (TokenType × List Char × Nat) :=
  if peekC text i = some '/' ∧ peekC text (i + 1) = some '/' then
    let j := line_scan text i
    some (TokenType.COMMENT, substr text i j, j)
  else if peekC text i = some '/' ∧ peekC text (i + 1) = some '*' then
    let j := block_scan text (i + 2)
    let j2 := if j < text.length then j + 2 else j
    some (TokenType.COMMENT, substr text i j2, j2)
  else none

/-- The identifier continuation loop (lines 98-103): letters, digits or
underscore. -/
def ident_scan (text : List Char) (i : Nat) : Nat :=
  scanWhile (fun ch => is_alnum ch || ch = '_') text i

/-- lex_identifier (lines 85-108). -/
def lex_identifier (text : List Char) (i : Nat) :
    Option (TokenType × List Char) × Nat :=
  if peek_is is_letter text i then
    let j := ident_scan text (i + 1)
    let lexeme := substr text i j
    if lexeme ∈ KEYWORDS then (some (TokenType.KEYWORD, lexeme), j)
    else (some (TokenType.IDENTIFIER, lexeme), j)
  else (none, i)

/-- The digit-run loop used by lex_integer and lex_real. -/
def digit_scan (text : List Char) (i : Nat) : Nat :=
  scanWhile is_digit text i

/-- Python membership test "self.peek() in \"123456789\"" (line 132).
Note Python's quirk: the empty-string sentinel is a substring of any string,
so a past-end peek makes the test True (unreachable there, since line 119
already required a digit). -/
def peek_in_nonzero (text : List Char) (i : Nat) : Bool :=
  match peekC text i with
  | some c => (String.toList "123456789").contains c
  | none => true

/-- lex_integer (lines 110-141).  On every failing path the Python code
restores self.i to the entry position before returning None. -/
def lex_integer (text : List Char) (i : Nat) :
    Option (TokenType × List Char) × Nat :=
  if peek_is is_digit text i then
    if peekC text i = some '0' then
      if peekC text (i + 1) = some '.' then (none, i)
      else (some (TokenType.INTEGER, substr text i (i + 1)), i + 1)
    else if peek_in_nonzero text i then
      let j := digit_scan text (i + 1)
      if peekC text j = some '.' then (none, i)
      else (some (TokenType.INTEGER, substr text i j), j)
    else (none, i)
  else (none, i)

/-- lex_real (lines 143-180).  Restores to the entry position on every
failing path (self.i = i0 in the source). -/
def lex_real (text : List Char) (i : Nat) :
    Option (TokenType × List Char) × Nat :=
  if peek_is is_digit text i then
    let j1 := digit_scan text i
    if peekC text j1 = some '.' then
      let j2 := j1 + 1
      if peek_is is_digit text j2 then
        let j3 := digit_scan text j2
        if peekC text j3 = some 'e' ∨ peekC text j3 = some 'E' then
          let j4 := j3 + 1
          let j5 :=
            if peekC text j4 = some '+' ∨ peekC text j4 = some '-' then j4 + 1
            else j4
          if peek_is is_digit text j5 then
            let j6 := digit_scan text j5
            (some (TokenType.REAL, substr text i j6), j6)
          else (none, i)
        else (some (TokenType.REAL, substr text i j3), j3)
      else (none, i)
    else (none, i)
  else (none, i)

/-- The string-body loop (lines 188-191): advance while not at end of input,
not at a closing quote, and not at a newline (the newline case breaks without
consuming). -/
def string_scan (text : List Char) (i : Nat) : Nat :=
  scanWhile (fun ch => ch != '"' && ch != '\n') text i

/-- lex_string (lines 183-194). -/
def lex_string (text : List Char) (i : Nat) :
    Option (TokenType × List Char) × Nat :=
  if peekC text i = some '"' then
    let j := string_scan text (i + 1)
    let j2 := if peekC text j = some '"' then j + 1 else j
    (some (TokenType.STRING, substr text i j2), j2)
  else (none, i)

/-- lex_operator_or_separator (lines 196-214).  Python builds
"two = self.peek() + self.peek(1)" by string concatenation, with the empty
sentinel for past-end peeks. -/
def lex_operator_or_separator (text : List Char) (i : Nat) :
    Option (TokenType × List Char) × Nat :=
  let two := (peekC text i).toList ++ (peekC text (i + 1)).toList
  if two ∈ MULTI_CHAR_OPS then (some (TokenType.OPERATOR, two), i + 2)
  else
    match peekC text i with
    | some ch =>
      if ch ∈ SINGLE_CHAR_OPS then (some (TokenType.OPERATOR, [ch]), i + 1)
      else if ch ∈ SEPARATORS then (some (TokenType.SEPARATOR, [ch]), i + 1)
      else (none, i)
    | none => (none, i)

/-- The dispatch loop of next_token (lines 228-234): each recognizer is tried
at the saved position "here"; a failing recognizer's cursor is discarded and
the next recognizer receives the same saved position. -/
def try_recognizers (text : List Char) (i : Nat) :
    Option (TokenType × List Char × Nat) :=
  match lex_real text i with
  | (some (t, lx), i2) => some (t, lx, i2)
  | (none, _) =>
  match lex_integer text i with
  | (some (t, lx), i2) => some (t, lx, i2)
  | (none, _) =>
  match lex_identifier text i with
  | (some (t, lx), i2) => some (t, lx, i2)
  | (none, _) =>
  match lex_string text i with
  | (some (t, lx), i2) => some (t, lx, i2)
  | (none, _) =>
  match lex_operator_or_separator text i with
  | (some (t, lx), i2) => some (t, lx, i2)
  | (none, _) => none

/-- next_token (lines 216-241).  The Python while-loop body always returns or
breaks (whitespace skipping, comment return, end-of-input break, recognizer
return, Unknown fallback return), so the loop runs at most one iteration and
the method is straight-line. -/
def next_token (text : List Char) (i : Nat) : TokenType × List Char × Nat :=
  if i < text.length then
    let i1 := skip_whitespace text i
    match skip_comments text i1 with
    | some (t, lx, i2) => (t, lx, i2)
    | none =>
      if i1 < text.length then
        match try_recognizers text i1 with
        | some (t, lx, i2) => (t, lx, i2)
        | none => (TokenType.UNKNOWN, (peekC text i1).toList, i1 + 1)
      else (TokenType.EOF, [], i1)
  else (TokenType.EOF, [], i)

/-- Repeatedly calling next_token, collecting the returned tokens up to and
including the terminating EndOfInput token.  The fuel argument is an upper
bound on the number of calls; text.length + 1 always suffices (see the
termination theorem for claim C9). -/
def tokensFuel : Nat → List Char → Nat → List (TokenType × List Char)
  | 0, _, _ => []
  | fuel + 1, text, i =>
    let r := next_token text i
    if r.1 = TokenType.EOF then [(r.1, r.2.1)]
    else (r.1, r.2.1) :: tokensFuel fuel text r.2.2

/-- The token stream of a whole input buffer, from a fresh cursor. -/
def tokenize (text : List Char) : List (TokenType × List Char) :=
  tokensFuel (text.length + 1) text 0

/-- The run of whitespace skipped by next_token when called at position i. -/
def wsRun (text : List Char) (i : Nat) : List Char :=
  substr text i (skip_whitespace text i)

/-- The in-order interleaving of skipped whitespace runs with the lexemes of
the returned tokens, replaying next_token from position i. -/
def reconFuel : Nat → List Char → Nat → List Char
  | 0, _, _ => []
  | fuel + 1, text, i =>
    let r := next_token text i
    if r.1 = TokenType.EOF then wsRun text i
    else wsRun text i ++ r.2.1 ++ reconFuel fuel text r.2.2

/-- Packaging of a recognizer result: a successful recognizer commits its
token and cursor, a failing one yields nothing. -/
def packR (r : Option (TokenType × List Char) × Nat) :
    Option (TokenType × List Char × Nat) :=
  match r with
  | (some (t, lx), j) => some (t, lx, j)
  | (none, _) => none

/-- The dispatch order stated by the spec (section 4.2): recognizers tried in
the exact priority order real, integer, identifier/keyword, string,
operator/separator, each receiving the same saved cursor position i; the
first success wins.  Stated from the spec's words, to be compared with
try_recognizers from the source. -/
def dispatch_spec (text : List Char) (i : Nat) :
    Option (TokenType × List Char × Nat) :=
  if (lex_real text i).1.isSome then packR (lex_real text i)
  else if (lex_integer text i).1.isSome then packR (lex_integer text i)
  else if (lex_identifier text i).1.isSome then packR (lex_identifier text i)
  else if (lex_string text i).1.isSome then packR (lex_string text i)
  else packR (lex_operator_or_separator text i)

/-! ### Character-class facts used throughout -/

theorem char_digit_iff (c : Char) : is_digit c = true ↔ 48 ≤ c.toNat ∧ c.toNat ≤ 57 := by
  simp [is_digit, Char.isDigit, UInt32.le_def, BitVec.le_def, Char.toNat, UInt32.toNat]

theorem char_alpha_iff (c : Char) :
    is_letter c = true ↔ (65 ≤ c.toNat ∧ c.toNat ≤ 90) ∨ (97 ≤ c.toNat ∧ c.toNat ≤ 122) := by
  simp [is_letter, Char.isAlpha, Char.isUpper, Char.isLower, UInt32.le_def, BitVec.le_def,
    Char.toNat, UInt32.toNat]

theorem digit_mem (c : Char) (h : is_digit c = true) : c ∈ String.toList "0123456789" := by
  obtain ⟨h1, h2⟩ := (char_digit_iff c).mp h
  have hc := Char.ofNat_toNat c
  interval_cases hn : c.toNat <;> rw [← hc] <;> decide

theorem digit_mem_nonzero (c : Char) (h : is_digit c = true) (h0 : c ≠ '0') :
    c ∈ String.toList "123456789" := by
  obtain ⟨h1, h2⟩ := (char_digit_iff c).mp h
  have hc := Char.ofNat_toNat c
  have h48 : c.toNat ≠ 48 := by
    intro hh
    rw [hh] at hc
    exact h0 (hc.symm.trans (by decide))
  interval_cases hn : c.toNat <;> first | omega | (subst hc; decide)

theorem alpha_not_digit (c : Char) (h : is_letter c = true) : is_digit c = false := by
  rw [Bool.eq_false_iff]
  intro hd
  obtain ⟨d1, d2⟩ := (char_digit_iff c).mp hd
  rcases (char_alpha_iff c).mp h with ⟨a, b⟩ | ⟨a, b⟩ <;> omega

theorem alpha_not_space (c : Char) (h : is_letter c = true) : is_space c = false := by
  simp only [is_space, Bool.or_eq_false_iff]
  refine ⟨⟨⟨⟨⟨?_, ?_⟩, ?_⟩, ?_⟩, ?_⟩, ?_⟩ <;>
    (simp only [decide_eq_false_iff_not]; intro hh; subst hh;
     rcases (char_alpha_iff _).mp h with ⟨a, b⟩ | ⟨a, b⟩ <;> exact absurd a (by decide))

theorem digit_not_space (c : Char) (h : is_digit c = true) : is_space c = false := by
  simp only [is_space, Bool.or_eq_false_iff]
  refine ⟨⟨⟨⟨⟨?_, ?_⟩, ?_⟩, ?_⟩, ?_⟩, ?_⟩ <;>
    (simp only [decide_eq_false_iff_not]; intro hh; subst hh;
     obtain ⟨a, b⟩ := (char_digit_iff _).mp h; exact absurd a (by decide))

theorem digit_ne_of (c d : Char) (h : is_digit c = true) (hd : is_digit d = false) : c ≠ d := by
  intro he; subst he; rw [h] at hd; cases hd

theorem alpha_ne_of (c d : Char) (h : is_letter c = true) (hd : is_letter d = false) : c ≠ d := by
  intro he; subst he; rw [h] at hd; cases hd

/-! ### takeWhile facts -/

theorem scanAux_eq_add (p : Char → Bool) :
    ∀ (l : List Char) (i : Nat), scanAux p l i = i + (l.takeWhile p).length := by
  intro l
  induction l with
  | nil => intro i; simp [scanAux]
  | cons c cs ih =>
    intro i
    by_cases h : p c
    · simp [scanAux, h, List.takeWhile_cons, ih]
      omega
    · simp [scanAux, h, List.takeWhile_cons]

theorem take_takeWhile_length (p : Char → Bool) (l : List Char) :
    l.take (l.takeWhile p).length = l.takeWhile p := by
  induction l with
  | nil => simp
  | cons c cs ih =>
    by_cases h : p c
    · simp [List.takeWhile_cons, h, ih]
    · simp [List.takeWhile_cons, h]

theorem takeWhile_stop (p : Char → Bool) (l : List Char)
    (h : (l.takeWhile p).length < l.length) :
    ∃ c, l[(l.takeWhile p).length]? = some c ∧ p c = false := by
  induction l with
  | nil => simp at h
  | cons a as ih =>
    by_cases hp : p a
    · simp only [List.takeWhile_cons, hp, if_true, List.length_cons] at h ⊢
      simpa using ih (by omega)
    · refine ⟨a, ?_, by simpa using hp⟩
      simp [List.takeWhile_cons, hp]

theorem takeWhile_hold (p : Char → Bool) (l : List Char) (k : Nat)
    (h : k < (l.takeWhile p).length) :
    ∃ c, l[k]? = some c ∧ p c = true := by
  induction l generalizing k with
  | nil => simp at h
  | cons a as ih =>
    by_cases hp : p a
    · simp only [List.takeWhile_cons, hp, if_true, List.length_cons] at h
      cases k with
      | zero => exact ⟨a, by simp, hp⟩
      | succ k => simpa using ih k (by omega)
    · simp [List.takeWhile_cons, hp] at h

theorem list_length_takeWhile_le (p : Char → Bool) (l : List Char) :
    (l.takeWhile p).length ≤ l.length :=
  (List.takeWhile_sublist p).length_le

/-! ### scanWhile facts, phrased on cursor positions -/

theorem scanWhile_eq (p : Char → Bool) (text : List Char) (i : Nat) :
    scanWhile p text i = i + ((text.drop i).takeWhile p).length :=
  scanAux_eq_add p (text.drop i) i

theorem scanWhile_ge (p : Char → Bool) (text : List Char) (i : Nat) :
    i ≤ scanWhile p text i := by
  rw [scanWhile_eq]; omega

theorem scanWhile_le (p : Char → Bool) (text : List Char) (i : Nat)
    (h : i ≤ text.length) : scanWhile p text i ≤ text.length := by
  rw [scanWhile_eq]
  have h1 := list_length_takeWhile_le p (text.drop i)
  have h2 := List.length_drop i text
  omega

theorem scanWhile_over (p : Char → Bool) (text : List Char) (i : Nat)
    (h : text.length ≤ i) : scanWhile p text i = i := by
  rw [scanWhile_eq, List.drop_eq_nil_of_le h]
  simp

theorem scanWhile_hold (p : Char → Bool) (text : List Char) (i j : Nat)
    (hij : i ≤ j) (hj : j < scanWhile p text i) :
    ∃ c, peekC text j = some c ∧ p c = true := by
  rw [scanWhile_eq] at hj
  obtain ⟨c, hc, hp⟩ := takeWhile_hold p (text.drop i) (j - i) (by omega)
  refine ⟨c, ?_, hp⟩
  rw [List.getElem?_drop] at hc
  have : i + (j - i) = j := by omega
  rw [this] at hc
  exact hc

theorem scanWhile_stop (p : Char → Bool) (text : List Char) (i : Nat)
    (h : scanWhile p text i < text.length) :
    ∃ c, peekC text (scanWhile p text i) = some c ∧ p c = false := by
  have hi : i ≤ text.length := le_of_lt (lt_of_le_of_lt (scanWhile_ge p text i) h)
  rw [scanWhile_eq] at h ⊢
  have hlen := List.length_drop i text
  obtain ⟨c, hc, hp⟩ := takeWhile_stop p (text.drop i) (by omega)
  refine ⟨c, ?_, hp⟩
  rw [List.getElem?_drop] at hc
  exact hc

theorem scanWhile_pos (p : Char → Bool) (text : List Char) (i : Nat)
    (h : peek_is p text i = true) : i + 1 ≤ scanWhile p text i := by
  unfold peek_is peekC at h
  rcases hg : text[i]? with _ | c
  · rw [hg] at h; simp at h
  · rw [hg] at h
    have hlt : i < text.length := (List.getElem?_eq_some_iff.mp hg).1
    rw [scanWhile_eq, List.drop_eq_getElem_cons hlt]
    have hget : text[i] = c := by
      have := List.getElem?_eq_some_iff.mp hg
      exact this.2
    rw [hget, List.takeWhile_cons, if_pos h]
    simp

theorem substr_scanWhile (p : Char → Bool) (text : List Char) (i : Nat) :
    substr text i (scanWhile p text i) = (text.drop i).takeWhile p := by
  rw [scanWhile_eq, substr]
  have : i + ((text.drop i).takeWhile p).length - i = ((text.drop i).takeWhile p).length := by
    omega
  rw [this, take_takeWhile_length]

/-! ### substr facts -/

theorem substr_self (text : List Char) (a : Nat) : substr text a a = [] := by
  simp [substr]

theorem substr_append_drop (text : List Char) (a b : Nat) (h : a ≤ b) :
    substr text a b ++ text.drop b = text.drop a := by
  unfold substr
  have hb : text.drop b = (text.drop a).drop (b - a) := by
    rw [List.drop_drop]
    congr 1
    omega
  rw [hb, List.take_append_drop]

theorem substr_all (text : List Char) :
    substr text 0 text.length = text := by
  simp [substr]

theorem substr_drop_of_ge (text : List Char) (a b : Nat) (hb : text.length ≤ b) :
    substr text a b = text.drop a := by
  unfold substr
  apply List.take_of_length_le
  have := List.length_drop a text
  omega

/-! ### block_aux / block_scan facts -/

theorem block_aux_ge : ∀ (l : List Char) (i : Nat), i ≤ block_aux l i := by
  intro l
  induction l with
  | nil => intro i; simp [block_aux]
  | cons c cs ih =>
    intro i
    cases cs with
    | nil => simp [block_aux]
    | cons c2 cs' =>
      by_cases h : c = '*' ∧ c2 = '/'
      · simp [block_aux, h]
      · have := ih (i + 1)
        simp only [block_aux, if_neg h]
        omega

theorem block_aux_le : ∀ (l : List Char) (i : Nat), block_aux l i ≤ i + l.length := by
  intro l
  induction l with
  | nil => intro i; simp [block_aux]
  | cons c cs ih =>
    intro i
    cases cs with
    | nil => simp [block_aux]
    | cons c2 cs' =>
      by_cases h : c = '*' ∧ c2 = '/'
      · simp [block_aux, h]
      · have := ih (i + 1)
        simp only [block_aux, if_neg h, List.length_cons] at this ⊢
        omega

theorem block_aux_no_close :
    ∀ (l : List Char) (i : Nat),
      (∀ k, ¬(l[k]? = some '*' ∧ l[k + 1]? = some '/')) →
      block_aux l i = i + l.length := by
  intro l
  induction l with
  | nil => intro i _; simp [block_aux]
  | cons c cs ih =>
    intro i hno
    cases cs with
    | nil => simp [block_aux]
    | cons c2 cs' =>
      have h0 := hno 0
      simp only [List.getElem?_cons_zero, List.getElem?_cons_succ,
        Option.some.injEq] at h0
      have hcond : ¬(c = '*' ∧ c2 = '/') := h0
      have hrec : block_aux (c2 :: cs') (i + 1) = (i + 1) + (c2 :: cs').length := by
        refine ih (i + 1) ?_
        intro k
        have := hno (k + 1)
        simpa using this
      simp only [block_aux, if_neg hcond, List.length_cons, hrec]
      omega

theorem block_aux_close :
    ∀ (l : List Char) (k i : Nat),
      l[k]? = some '*' → l[k + 1]? = some '/' →
      (∀ m, m < k → ¬(l[m]? = some '*' ∧ l[m + 1]? = some '/')) →
      block_aux l i = i + k := by
  intro l
  induction l with
  | nil => intro k i h1 _ _; simp at h1
  | cons c cs ih =>
    intro k i h1 h2 hmin
    cases cs with
    | nil =>
      cases k with
      | zero => simp at h2
      | succ k => simp at h1
    | cons c2 cs' =>
      cases k with
      | zero =>
        simp only [List.getElem?_cons_zero, Option.some.injEq] at h1
        have h2' : c2 = '/' := by
          have : (c :: c2 :: cs')[(1 : Nat)]? = some '/' := h2
          simpa using this
        simp [block_aux, h1, h2']
      | succ k =>
        have h0 := hmin 0 (by omega)
        simp only [List.getElem?_cons_zero, List.getElem?_cons_succ,
          Option.some.injEq] at h0
        have hrec : block_aux (c2 :: cs') (i + 1) = (i + 1) + k := by
          refine ih k (i + 1) (by simpa using h1) (by simpa using h2) ?_
          intro m hm
          have := hmin (m + 1) (by omega)
          simpa using this
        simp only [block_aux, if_neg h0, hrec]
        omega

theorem block_aux_stop :
    ∀ (l : List Char) (i : Nat), block_aux l i < i + l.length →
      l[block_aux l i - i]? = some '*' ∧ l[block_aux l i - i + 1]? = some '/' := by
  intro l
  induction l with
  | nil => intro i h; simp [block_aux] at h
  | cons c cs ih =>
    intro i h
    cases cs with
    | nil => simp [block_aux] at h
    | cons c2 cs' =>
      by_cases hc : c = '*' ∧ c2 = '/'
      · simp [block_aux, hc]
      · simp only [block_aux, if_neg hc, List.length_cons] at h ⊢
        have hge := block_aux_ge (c2 :: cs') (i + 1)
        have hres := ih (i + 1) (by simp only [List.length_cons] at *; omega)
        have harith : block_aux (c2 :: cs') (i + 1) - i =
            (block_aux (c2 :: cs') (i + 1) - (i + 1)) + 1 := by omega
        rw [harith]
        simpa using hres

theorem peekC_some_lt (text : List Char) (i : Nat) (c : Char)
    (h : peekC text i = some c) : i < text.length :=
  (List.getElem?_eq_some_iff.mp h).1

theorem peekC_drop (text : List Char) (i k : Nat) :
    (text.drop i)[k]? = peekC text (i + k) :=
  List.getElem?_drop text i k

theorem peek_is_some (p : Char → Bool) (text : List Char) (i : Nat)
    (h : peek_is p text i = true) :
    ∃ c, peekC text i = some c ∧ p c = true := by
  unfold peek_is at h
  rcases hg : peekC text i with _ | c
  · rw [hg] at h; simp at h
  · rw [hg] at h; exact ⟨c, rfl, h⟩

theorem block_scan_ge (text : List Char) (i : Nat) : i ≤ block_scan text i :=
  block_aux_ge (text.drop i) i

theorem block_scan_le (text : List Char) (i : Nat) (h : i ≤ text.length) :
    block_scan text i ≤ text.length := by
  have := block_aux_le (text.drop i) i
  have h2 := List.length_drop i text
  unfold block_scan
  omega

theorem block_scan_no_close (text : List Char) (i : Nat)
    (hno : ∀ k, i ≤ k → ¬(peekC text k = some '*' ∧ peekC text (k + 1) = some '/'))
    (hi : i ≤ text.length) :
    block_scan text i = text.length := by
  unfold block_scan
  rw [block_aux_no_close (text.drop i) i ?_]
  · have := List.length_drop i text
    omega
  · intro k
    rw [peekC_drop, peekC_drop]
    have : i + (k + 1) = (i + k) + 1 := by omega
    rw [this]
    exact hno (i + k) (by omega)

theorem block_scan_close (text : List Char) (i k : Nat)
    (hik : i ≤ k)
    (hk1 : peekC text k = some '*') (hk2 : peekC text (k + 1) = some '/')
    (hmin : ∀ m, i ≤ m → m < k →
      ¬(peekC text m = some '*' ∧ peekC text (m + 1) = some '/')) :
    block_scan text i = k := by
  unfold block_scan
  rw [block_aux_close (text.drop i) (k - i) i ?_ ?_ ?_]
  · omega
  · rw [peekC_drop]
    have : i + (k - i) = k := by omega
    rw [this]; exact hk1
  · rw [peekC_drop]
    have : i + (k - i + 1) = k + 1 := by omega
    rw [this]; exact hk2
  · intro m hm
    rw [peekC_drop, peekC_drop]
    have : i + (m + 1) = (i + m) + 1 := by omega
    rw [this]
    exact hmin (i + m) (by omega) (by omega)

theorem block_scan_stop (text : List Char) (i : Nat) (hi : i ≤ text.length)
    (h : block_scan text i < text.length) :
    peekC text (block_scan text i) = some '*' ∧
      peekC text (block_scan text i + 1) = some '/' := by
  have hge := block_scan_ge text i
  have hlen := List.length_drop i text
  have := block_aux_stop (text.drop i) i (by unfold block_scan at h; omega)
  unfold block_scan at hge ⊢
  rw [peekC_drop, peekC_drop] at this
  have e1 : i + (block_aux (text.drop i) i - i) = block_aux (text.drop i) i := by omega
  have e2 : i + (block_aux (text.drop i) i - i + 1) = block_aux (text.drop i) i + 1 := by
    omega
  rw [e1, e2] at this
  exact this

/-! ### Per-recognizer specifications: frame on failure, lexeme/advance on
success -/

theorem lex_real_frame (text : List Char) (i j : Nat)
    (hr : lex_real text i = (none, j)) : j = i := by
  simp only [lex_real] at hr
  repeat' split at hr
  all_goals simp_all

theorem lex_integer_frame (text : List Char) (i j : Nat)
    (hr : lex_integer text i = (none, j)) : j = i := by
  simp only [lex_integer] at hr
  repeat' split at hr
  all_goals simp_all

theorem lex_identifier_frame (text : List Char) (i j : Nat)
    (hr : lex_identifier text i = (none, j)) : j = i := by
  simp only [lex_identifier] at hr
  repeat' split at hr
  all_goals simp_all

theorem lex_string_frame (text : List Char) (i j : Nat)
    (hr : lex_string text i = (none, j)) : j = i := by
  simp only [lex_string] at hr
  repeat' split at hr
  all_goals simp_all

theorem lex_operator_or_separator_frame (text : List Char) (i j : Nat)
    (hr : lex_operator_or_separator text i = (none, j)) : j = i := by
  simp only [lex_operator_or_separator] at hr
  rcases hg : peekC text i with _ | c <;> rw [hg] at hr <;>
    (repeat' split at hr) <;> simp_all

theorem peekC_none_succ (text : List Char) (i : Nat) (h : peekC text i = none) :
    peekC text (i + 1) = none := by
  unfold peekC at h ⊢
  rw [List.getElem?_eq_none_iff] at h ⊢
  omega

theorem substr_one (text : List Char) (i : Nat) (a : Char)
    (h : peekC text i = some a) : substr text i (i + 1) = [a] := by
  obtain ⟨hlt, hget⟩ := List.getElem?_eq_some_iff.mp h
  unfold substr
  rw [List.drop_eq_getElem_cons hlt]
  simp [hget]

theorem substr_two (text : List Char) (i : Nat) (a b : Char)
    (ha : peekC text i = some a) (hb : peekC text (i + 1) = some b) :
    substr text i (i + 2) = [a, b] := by
  obtain ⟨hlt, hget⟩ := List.getElem?_eq_some_iff.mp ha
  obtain ⟨hlt2, hget2⟩ := List.getElem?_eq_some_iff.mp hb
  unfold substr
  rw [List.drop_eq_getElem_cons hlt]
  have : i + 2 - i = 2 := by omega
  rw [this, List.take_succ_cons, List.drop_eq_getElem_cons hlt2]
  simp [hget, hget2]

theorem multi_char_len (two : List Char) (h : two ∈ MULTI_CHAR_OPS) :
    two.length = 2 := by
  simp only [MULTI_CHAR_OPS, List.mem_cons, List.not_mem_nil, or_false] at h
  rcases h with rfl | rfl | rfl | rfl | rfl | rfl <;> rfl

theorem lex_identifier_spec (text : List Char) (i i2 : Nat) (t : TokenType)
    (lx : List Char) (hr : lex_identifier text i = (some (t, lx), i2)) :
    lx = substr text i i2 ∧ i < i2 ∧ i2 ≤ text.length ∧
      (t = TokenType.IDENTIFIER ∨ t = TokenType.KEYWORD) := by
  simp only [lex_identifier] at hr
  by_cases c1 : peek_is is_letter text i = true
  swap
  · simp [c1] at hr
  rw [if_pos c1] at hr
  obtain ⟨c, hc, _⟩ := peek_is_some _ _ _ c1
  have hlt : i < text.length := peekC_some_lt _ _ _ hc
  have hge : i + 1 ≤ ident_scan text (i + 1) :=
    scanWhile_ge _ text (i + 1)
  have hle : ident_scan text (i + 1) ≤ text.length :=
    scanWhile_le _ text (i + 1) (by omega)
  split at hr <;>
    (simp only [Prod.mk.injEq, Option.some.injEq] at hr;
     obtain ⟨⟨ht, hlx⟩, hi2⟩ := hr; subst hi2;
     exact ⟨hlx.symm, by omega, hle, by simp [← ht]⟩)

theorem lex_integer_spec (text : List Char) (i i2 : Nat) (t : TokenType)
    (lx : List Char) (hr : lex_integer text i = (some (t, lx), i2)) :
    t = TokenType.INTEGER ∧ lx = substr text i i2 ∧ i < i2 ∧
      i2 ≤ text.length := by
  simp only [lex_integer] at hr
  by_cases c1 : peek_is is_digit text i = true
  swap
  · simp [c1] at hr
  rw [if_pos c1] at hr
  obtain ⟨c, hc, _⟩ := peek_is_some _ _ _ c1
  have hlt : i < text.length := peekC_some_lt _ _ _ hc
  by_cases c2 : peekC text i = some '0'
  · rw [if_pos c2] at hr
    by_cases c3 : peekC text (i + 1) = some '.'
    · rw [if_pos c3] at hr; simp at hr
    · rw [if_neg c3] at hr
      simp only [Prod.mk.injEq, Option.some.injEq] at hr
      obtain ⟨⟨ht, hlx⟩, hi2⟩ := hr
      subst hi2
      exact ⟨ht.symm, hlx.symm, by omega, by omega⟩
  · rw [if_neg c2] at hr
    by_cases c4 : peek_in_nonzero text i = true
    swap
    · simp [c4] at hr
    rw [if_pos c4] at hr
    by_cases c5 : peekC text (digit_scan text (i + 1)) = some '.'
    · rw [if_pos c5] at hr; simp at hr
    · rw [if_neg c5] at hr
      simp only [Prod.mk.injEq, Option.some.injEq] at hr
      obtain ⟨⟨ht, hlx⟩, hi2⟩ := hr
      subst hi2
      have hge : i + 1 ≤ digit_scan text (i + 1) := scanWhile_ge _ text (i + 1)
      have hle : digit_scan text (i + 1) ≤ text.length :=
        scanWhile_le _ text (i + 1) (by omega)
      exact ⟨ht.symm, hlx.symm, by omega, hle⟩

theorem lex_real_spec (text : List Char) (i i2 : Nat) (t : TokenType)
    (lx : List Char) (hr : lex_real text i = (some (t, lx), i2)) :
    t = TokenType.REAL ∧ lx = substr text i i2 ∧ i < i2 ∧
      i2 ≤ text.length := by
  simp only [lex_real] at hr
  by_cases c1 : peek_is is_digit text i = true
  swap
  · simp [c1] at hr
  rw [if_pos c1] at hr
  obtain ⟨c, hc, _⟩ := peek_is_some _ _ _ c1
  have hlt : i < text.length := peekC_some_lt _ _ _ hc
  have hj1ge : i ≤ digit_scan text i := scanWhile_ge _ text i
  by_cases c2 : peekC text (digit_scan text i) = some '.'
  swap
  · rw [if_neg c2] at hr; simp at hr
  rw [if_pos c2] at hr
  have hj1lt : digit_scan text i < text.length := peekC_some_lt _ _ _ c2
  by_cases c3 : peek_is is_digit text (digit_scan text i + 1) = true
  swap
  · simp [c3] at hr
  rw [if_pos c3] at hr
  have hj3ge : digit_scan text i + 1 ≤ digit_scan text (digit_scan text i + 1) :=
    scanWhile_ge _ text _
  have hj3le : digit_scan text (digit_scan text i + 1) ≤ text.length :=
    scanWhile_le _ text _ (by omega)
  by_cases c4 : peekC text (digit_scan text (digit_scan text i + 1)) = some 'e' ∨
      peekC text (digit_scan text (digit_scan text i + 1)) = some 'E'
  swap
  · rw [if_neg c4] at hr
    simp only [Prod.mk.injEq, Option.some.injEq] at hr
    obtain ⟨⟨ht, hlx⟩, hi2⟩ := hr
    subst hi2
    exact ⟨ht.symm, hlx.symm, by omega, hj3le⟩
  rw [if_pos c4] at hr
  have hj3lt : digit_scan text (digit_scan text i + 1) < text.length := by
    rcases c4 with h | h <;> exact peekC_some_lt _ _ _ h
  by_cases c5 : peekC text (digit_scan text (digit_scan text i + 1) + 1) = some '+' ∨
      peekC text (digit_scan text (digit_scan text i + 1) + 1) = some '-'
  · rw [if_pos c5] at hr
    have hj4lt : digit_scan text (digit_scan text i + 1) + 1 < text.length := by
      rcases c5 with h | h <;> exact peekC_some_lt _ _ _ h
    by_cases c6 : peek_is is_digit text
        (digit_scan text (digit_scan text i + 1) + 1 + 1) = true
    swap
    · simp [c6] at hr
    rw [if_pos c6] at hr
    simp only [Prod.mk.injEq, Option.some.injEq] at hr
    obtain ⟨⟨ht, hlx⟩, hi2⟩ := hr
    subst hi2
    have hge : digit_scan text (digit_scan text i + 1) + 1 + 1 ≤
        digit_scan text (digit_scan text (digit_scan text i + 1) + 1 + 1) :=
      scanWhile_ge _ text _
    have hle : digit_scan text (digit_scan text (digit_scan text i + 1) + 1 + 1) ≤
        text.length := scanWhile_le _ text _ (by omega)
    exact ⟨ht.symm, hlx.symm, by omega, hle⟩
  · rw [if_neg c5] at hr
    by_cases c6 : peek_is is_digit text
        (digit_scan text (digit_scan text i + 1) + 1) = true
    swap
    · simp [c6] at hr
    rw [if_pos c6] at hr
    simp only [Prod.mk.injEq, Option.some.injEq] at hr
    obtain ⟨⟨ht, hlx⟩, hi2⟩ := hr
    subst hi2
    have hge : digit_scan text (digit_scan text i + 1) + 1 ≤
        digit_scan text (digit_scan text (digit_scan text i + 1) + 1) :=
      scanWhile_ge _ text _
    have hle : digit_scan text (digit_scan text (digit_scan text i + 1) + 1) ≤
        text.length := scanWhile_le _ text _ (by omega)
    exact ⟨ht.symm, hlx.symm, by omega, hle⟩

theorem lex_string_spec (text : List Char) (i i2 : Nat) (t : TokenType)
    (lx : List Char) (hr : lex_string text i = (some (t, lx), i2)) :
    t = TokenType.STRING ∧ lx = substr text i i2 ∧ i < i2 ∧
      i2 ≤ text.length := by
  simp only [lex_string] at hr
  by_cases c1 : peekC text i = some '"'
  swap
  · rw [if_neg c1] at hr; simp at hr
  rw [if_pos c1] at hr
  have hlt : i < text.length := peekC_some_lt _ _ _ c1
  have hge : i + 1 ≤ string_scan text (i + 1) := scanWhile_ge _ text (i + 1)
  have hle : string_scan text (i + 1) ≤ text.length :=
    scanWhile_le _ text (i + 1) (by omega)
  by_cases c2 : peekC text (string_scan text (i + 1)) = some '"'
  · rw [if_pos c2] at hr
    have hslt : string_scan text (i + 1) < text.length := peekC_some_lt _ _ _ c2
    simp only [Prod.mk.injEq, Option.some.injEq] at hr
    obtain ⟨⟨ht, hlx⟩, hi2⟩ := hr
    subst hi2
    exact ⟨ht.symm, hlx.symm, by omega, by omega⟩
  · rw [if_neg c2] at hr
    simp only [Prod.mk.injEq, Option.some.injEq] at hr
    obtain ⟨⟨ht, hlx⟩, hi2⟩ := hr
    subst hi2
    exact ⟨ht.symm, hlx.symm, by omega, hle⟩

theorem lex_operator_or_separator_spec (text : List Char) (i i2 : Nat)
    (t : TokenType) (lx : List Char)
    (hr : lex_operator_or_separator text i = (some (t, lx), i2)) :
    lx = substr text i i2 ∧ i < i2 ∧ i2 ≤ text.length ∧
      (t = TokenType.OPERATOR ∨ t = TokenType.SEPARATOR) := by
  simp only [lex_operator_or_separator] at hr
  rcases hg : peekC text i with _ | a
  · rw [hg] at hr
    rw [peekC_none_succ text i hg] at hr
    simp only [Option.toList_none, List.nil_append] at hr
    split at hr
    · rename_i hm
      simp [MULTI_CHAR_OPS] at hm
    · simp at hr
  · rw [hg] at hr
    have hlt : i < text.length := peekC_some_lt _ _ _ hg
    rcases hg2 : peekC text (i + 1) with _ | b
    · rw [hg2] at hr
      simp only [Option.toList_some, Option.toList_none, List.append_nil] at hr
      split at hr
      · rename_i hm
        have := multi_char_len _ hm
        simp at this
      · split at hr
        · simp only [Prod.mk.injEq, Option.some.injEq] at hr
          obtain ⟨⟨ht, hlx⟩, hi2⟩ := hr
          subst hi2
          exact ⟨by rw [← hlx, substr_one text i a hg], by omega, by omega,
            Or.inl ht.symm⟩
        · split at hr
          · simp only [Prod.mk.injEq, Option.some.injEq] at hr
            obtain ⟨⟨ht, hlx⟩, hi2⟩ := hr
            subst hi2
            exact ⟨by rw [← hlx, substr_one text i a hg], by omega, by omega,
              Or.inr ht.symm⟩
          · simp at hr
    · rw [hg2] at hr
      have hlt2 : i + 1 < text.length := peekC_some_lt _ _ _ hg2
      simp only [Option.toList_some] at hr
      split at hr
      · simp only [Prod.mk.injEq, Option.some.injEq] at hr
        obtain ⟨⟨ht, hlx⟩, hi2⟩ := hr
        subst hi2
        refine ⟨?_, by omega, by omega, Or.inl ht.symm⟩
        rw [← hlx]
        have : [a] ++ [b] = [a, b] := rfl
        rw [List.singleton_append, substr_two text i a b hg hg2]
      · split at hr
        · simp only [Prod.mk.injEq, Option.some.injEq] at hr
          obtain ⟨⟨ht, hlx⟩, hi2⟩ := hr
          subst hi2
          exact ⟨by rw [← hlx, substr_one text i a hg], by omega, by omega,
            Or.inl ht.symm⟩
        · split at hr
          · simp only [Prod.mk.injEq, Option.some.injEq] at hr
            obtain ⟨⟨ht, hlx⟩, hi2⟩ := hr
            subst hi2
            exact ⟨by rw [← hlx, substr_one text i a hg], by omega, by omega,
              Or.inr ht.symm⟩
          · simp at hr

theorem skip_comments_spec (text : List Char) (j j2 : Nat) (t : TokenType)
    (lx : List Char) (h : skip_comments text j = some (t, lx, j2)) :
    t = TokenType.COMMENT ∧ lx = substr text j j2 ∧ j < j2 ∧
      j2 ≤ text.length := by
  simp only [skip_comments] at h
  by_cases c1 : peekC text j = some '/' ∧ peekC text (j + 1) = some '/'
  · rw [if_pos c1] at h
    simp only [Option.some.injEq, Prod.mk.injEq] at h
    obtain ⟨ht, hlx, hj2⟩ := h
    subst hj2
    have hlt : j < text.length := peekC_some_lt _ _ _ c1.1
    have hpos : j + 1 ≤ line_scan text j := by
      apply scanWhile_pos
      unfold peek_is
      rw [c1.1]
      decide
    have hle : line_scan text j ≤ text.length :=
      scanWhile_le _ text j (by omega)
    exact ⟨ht.symm, hlx.symm, by omega, hle⟩
  · rw [if_neg c1] at h
    by_cases c2 : peekC text j = some '/' ∧ peekC text (j + 1) = some '*'
    swap
    · rw [if_neg c2] at h; simp at h
    rw [if_pos c2] at h
    simp only [Option.some.injEq, Prod.mk.injEq] at h
    obtain ⟨ht, hlx, hj2⟩ := h
    subst hj2
    have hlt : j < text.length := peekC_some_lt _ _ _ c2.1
    have hlt2 : j + 1 < text.length := peekC_some_lt _ _ _ c2.2
    have hge : j + 2 ≤ block_scan text (j + 2) := block_scan_ge text (j + 2)
    have hle : block_scan text (j + 2) ≤ text.length :=
      block_scan_le text (j + 2) (by omega)
    by_cases c3 : block_scan text (j + 2) < text.length
    · rw [if_pos c3]
      obtain ⟨_, hclose⟩ := block_scan_stop text (j + 2) (by omega) c3
      have : block_scan text (j + 2) + 1 < text.length :=
        peekC_some_lt _ _ _ hclose
      exact ⟨ht.symm, by rw [← hlx, if_pos c3], by omega, by omega⟩
    · rw [if_neg c3]
      exact ⟨ht.symm, by rw [← hlx, if_neg c3], by omega, by omega⟩

theorem try_recognizers_spec (text : List Char) (i i2 : Nat) (t : TokenType)
    (lx : List Char) (h : try_recognizers text i = some (t, lx, i2)) :
    lx = substr text i i2 ∧ i < i2 ∧ i2 ≤ text.length ∧
      t ≠ TokenType.EOF ∧ t ≠ TokenType.COMMENT ∧ t ≠ TokenType.UNKNOWN := by
  unfold try_recognizers at h
  split at h
  · rename_i t1 lx1 i21 heq
    simp only [Option.some.injEq, Prod.mk.injEq] at h
    obtain ⟨ht, hlx, hi2⟩ := h
    subst ht; subst hlx; subst hi2
    obtain ⟨ht, hlx, hadv, hle⟩ := lex_real_spec text i i21 t1 lx1 heq
    subst ht
    exact ⟨hlx, hadv, hle, by simp, by simp, by simp⟩
  split at h
  · rename_i t1 lx1 i21 heq
    simp only [Option.some.injEq, Prod.mk.injEq] at h
    obtain ⟨ht, hlx, hi2⟩ := h
    subst ht; subst hlx; subst hi2
    obtain ⟨ht, hlx, hadv, hle⟩ := lex_integer_spec text i i21 t1 lx1 heq
    subst ht
    exact ⟨hlx, hadv, hle, by simp, by simp, by simp⟩
  split at h
  · rename_i t1 lx1 i21 heq
    simp only [Option.some.injEq, Prod.mk.injEq] at h
    obtain ⟨ht, hlx, hi2⟩ := h
    subst ht; subst hlx; subst hi2
    obtain ⟨hlx, hadv, hle, hk⟩ := lex_identifier_spec text i i21 t1 lx1 heq
    refine ⟨hlx, hadv, hle, ?_, ?_, ?_⟩ <;> rcases hk with hk | hk <;> simp [hk]
  split at h
  · rename_i t1 lx1 i21 heq
    simp only [Option.some.injEq, Prod.mk.injEq] at h
    obtain ⟨ht, hlx, hi2⟩ := h
    subst ht; subst hlx; subst hi2
    obtain ⟨ht, hlx, hadv, hle⟩ := lex_string_spec text i i21 t1 lx1 heq
    subst ht
    exact ⟨hlx, hadv, hle, by simp, by simp, by simp⟩
  split at h
  · rename_i t1 lx1 i21 heq
    simp only [Option.some.injEq, Prod.mk.injEq] at h
    obtain ⟨ht, hlx, hi2⟩ := h
    subst ht; subst hlx; subst hi2
    obtain ⟨hlx, hadv, hle, hk⟩ :=
      lex_operator_or_separator_spec text i i21 t1 lx1 heq
    refine ⟨hlx, hadv, hle, ?_, ?_, ?_⟩ <;> rcases hk with hk | hk <;> simp [hk]
  · simp at h

theorem wsRun_spaces (text : List Char) (i : Nat) (c : Char)
    (h : c ∈ wsRun text i) : is_space c = true := by
  unfold wsRun skip_whitespace at h
  rw [substr_scanWhile] at h
  exact List.mem_takeWhile_imp h

theorem next_token_spec (text : List Char) (i i2 : Nat) (t : TokenType)
    (lx : List Char) (hnt : next_token text i = (t, lx, i2)) :
    lx = substr text (skip_whitespace text i) i2 ∧
    skip_whitespace text i ≤ i2 ∧
    (t = TokenType.EOF → i2 = skip_whitespace text i ∧ text.length ≤ i2 ∧
      lx = []) ∧
    (t ≠ TokenType.EOF → skip_whitespace text i < i2 ∧ i2 ≤ text.length) := by
  simp only [next_token] at hnt
  by_cases hi : i < text.length
  swap
  · rw [if_neg hi] at hnt
    simp only [Prod.mk.injEq] at hnt
    obtain ⟨ht, hlx, hi2⟩ := hnt
    subst ht; subst hlx; subst hi2
    have hsw : skip_whitespace text i = i :=
      scanWhile_over _ _ _ (by omega)
    rw [hsw]
    exact ⟨(substr_self text i).symm, le_refl i,
      fun _ => ⟨rfl, by omega, rfl⟩, fun hne => absurd rfl hne⟩
  · rw [if_pos hi] at hnt
    have hswle : skip_whitespace text i ≤ text.length :=
      scanWhile_le _ text i (by omega)
    rcases hsc : skip_comments text (skip_whitespace text i) with _ | ⟨tc, lxc, jc⟩
    · rw [hsc] at hnt
      by_cases h2 : skip_whitespace text i < text.length
      · rw [if_pos h2] at hnt
        rcases htr : try_recognizers text (skip_whitespace text i) with _ | ⟨tr, lxr, ir⟩
        · rw [htr] at hnt
          simp only [Prod.mk.injEq] at hnt
          obtain ⟨ht, hlx, hi2⟩ := hnt
          subst ht; subst hi2
          obtain ⟨c, hc⟩ : ∃ c, peekC text (skip_whitespace text i) = some c :=
            ⟨_, List.getElem?_eq_getElem h2⟩
          rw [hc] at hlx
          subst hlx
          refine ⟨?_, by omega, fun he => TokenType.noConfusion he,
            fun _ => ⟨by omega, by omega⟩⟩
          rw [substr_one text _ c hc]
          rfl
        · rw [htr] at hnt
          simp only [Prod.mk.injEq] at hnt
          obtain ⟨ht, hlx, hi2⟩ := hnt
          subst ht; subst hlx; subst hi2
          obtain ⟨hlx, hadv, hle, hne, _, _⟩ :=
            try_recognizers_spec text _ _ _ _ htr
          exact ⟨hlx, by omega, fun he => absurd he hne, fun _ => ⟨hadv, hle⟩⟩
      · rw [if_neg h2] at hnt
        simp only [Prod.mk.injEq] at hnt
        obtain ⟨ht, hlx, hi2⟩ := hnt
        subst ht; subst hlx; subst hi2
        exact ⟨(substr_self text _).symm, le_refl _,
          fun _ => ⟨rfl, by omega, rfl⟩, fun hne => absurd rfl hne⟩
    · rw [hsc] at hnt
      simp only [Prod.mk.injEq] at hnt
      obtain ⟨ht, hlx, hi2⟩ := hnt
      subst ht; subst hlx; subst hi2
      obtain ⟨htc, hlxc, hadv, hle⟩ := skip_comments_spec text _ _ _ _ hsc
      subst htc
      exact ⟨hlxc, by omega, fun he => TokenType.noConfusion he,
        fun _ => ⟨hadv, hle⟩⟩

theorem substr_split (text : List Char) (a b c : Nat) (hab : a ≤ b)
    (hbc : b ≤ c) : substr text a c = substr text a b ++ substr text b c := by
  unfold substr
  have hc : c - a = (b - a) + (c - b) := by omega
  rw [hc, List.take_add]
  congr 1
  rw [List.drop_drop]
  congr 2
  omega

theorem scanWhile_none (p : Char → Bool) (text : List Char) (i : Nat)
    (c : Char) (hc : peekC text i = some c) (hp : p c = false) :
    scanWhile p text i = i := by
  obtain ⟨hlt, hget⟩ := List.getElem?_eq_some_iff.mp hc
  rw [scanWhile_eq, List.drop_eq_getElem_cons hlt, hget, List.takeWhile_cons,
    if_neg (by simp [hp])]
  simp

theorem reconFuel_eq :
    ∀ (fuel : Nat) (text : List Char) (i : Nat), i ≤ text.length →
      text.length - i < fuel → reconFuel fuel text i = text.drop i := by
  intro fuel
  induction fuel with
  | zero => intro text i h1 h2; omega
  | succ fuel ih =>
    intro text i h1 h2
    simp only [reconFuel]
    rcases hnt : next_token text i with ⟨t, lx, i2⟩
    obtain ⟨hlx, hswle2, heof, hneof⟩ := next_token_spec text i i2 t lx hnt
    have hswge : i ≤ skip_whitespace text i := scanWhile_ge _ text i
    have hswle : skip_whitespace text i ≤ text.length :=
      scanWhile_le _ text i h1
    by_cases ht : t = TokenType.EOF
    · subst ht
      rw [if_pos rfl]
      obtain ⟨hi2, hlen, _⟩ := heof rfl
      have hsw : skip_whitespace text i = text.length := by omega
      unfold wsRun
      rw [hsw, substr_drop_of_ge text i text.length (le_refl _)]
    · rw [if_neg (by simpa using ht)]
      obtain ⟨hadv, hle⟩ := hneof ht
      simp only
      have hrec : reconFuel fuel text i2 = text.drop i2 :=
        ih text i2 hle (by omega)
      rw [hrec, hlx]
      unfold wsRun
      rw [← substr_split text i (skip_whitespace text i) i2 hswge (by omega),
        substr_append_drop text i i2 (by omega)]

theorem tokensFuel_count :
    ∀ (fuel : Nat) (text : List Char) (i : Nat), i ≤ text.length →
      text.length - i < fuel →
      ((tokensFuel fuel text i).filter
        (fun p => p.1 ≠ TokenType.EOF)).length ≤ text.length - i := by
  intro fuel
  induction fuel with
  | zero => intro text i h1 h2; omega
  | succ fuel ih =>
    intro text i h1 h2
    simp only [tokensFuel]
    rcases hnt : next_token text i with ⟨t, lx, i2⟩
    obtain ⟨hlx, hswle2, heof, hneof⟩ := next_token_spec text i i2 t lx hnt
    have hswge : i ≤ skip_whitespace text i := scanWhile_ge _ text i
    by_cases ht : t = TokenType.EOF
    · subst ht
      rw [if_pos rfl]
      simp
    · rw [if_neg (by simpa using ht)]
      obtain ⟨hadv, hle⟩ := hneof ht
      have hrec := ih text i2 hle (by omega)
      simp only [List.filter_cons]
      rw [if_pos (by simpa using ht)]
      simp only [List.length_cons]
      omega

theorem next_token_eof_stable (text : List Char) (i j : Nat) (lx : List Char)
    (h : next_token text i = (TokenType.EOF, lx, j)) :
    lx = [] ∧ next_token text j = (TokenType.EOF, [], j) := by
  obtain ⟨_, _, heof, _⟩ := next_token_spec text i j TokenType.EOF lx h
  obtain ⟨hj, hlen, hlx⟩ := heof rfl
  refine ⟨hlx, ?_⟩
  unfold next_token
  rw [if_neg (by omega)]

/-! ## Claim theorems -/

/-- C1: for every input, replaying next_token from the start reconstructs the
input exactly as the in-order interleaving of the skipped whitespace runs
with the lexemes of every returned token; every skipped run consists of
whitespace characters only, and each lexeme is the exact contiguous
substring of the input consumed for it (from the post-whitespace position to
the returned cursor). -/
theorem thm_C1 (text : List Char) :
    reconFuel (text.length + 1) text 0 = text ∧
    (∀ i c, c ∈ wsRun text i → is_space c = true) ∧
    (∀ i i2 t lx, next_token text i = (t, lx, i2) →
      lx = substr text (skip_whitespace text i) i2 ∧
        skip_whitespace text i ≤ i2) := by
  refine ⟨?_, fun i c h => wsRun_spaces text i c h, fun i i2 t lx h => ?_⟩
  · have h := reconFuel_eq (text.length + 1) text 0 (by omega) (by omega)
    simpa using h
  · obtain ⟨hlx, hle, _, _⟩ := next_token_spec text i i2 t lx h
    exact ⟨hlx, hle⟩

theorem thm_C1_witness :
    reconFuel ((String.toList "if x1").length + 1) (String.toList "if x1") 0 =
      String.toList "if x1" ∧
    String.toList "if" =
      substr (String.toList "if x1")
        (skip_whitespace (String.toList "if x1") 0) 2 :=
  ⟨(thm_C1 (String.toList "if x1")).1,
   ((thm_C1 (String.toList "if x1")).2.2 0 2 TokenType.KEYWORD
      (String.toList "if") (by decide)).1⟩

/-- C2 counterexample: tokenizing "3." does NOT yield Integer "3" followed by
Unknown "." and EndOfInput — lex_integer discards its match because the digit
run is followed by a dot, and lex_real has already failed, so the '3' falls
through to the Unknown fallback. -/
theorem cex_C2 :
    ¬(tokenize (String.toList "3.") =
      [(TokenType.INTEGER, ['3']), (TokenType.UNKNOWN, ['.']),
       (TokenType.EOF, [])]) := by decide

/-- C2 amended: tokenizing "3." yields Unknown "3" followed by Unknown "."
and then EndOfInput. -/
theorem thm_C2 :
    tokenize (String.toList "3.") =
      [(TokenType.UNKNOWN, ['3']), (TokenType.UNKNOWN, ['.']),
       (TokenType.EOF, [])] := by decide

/-- C3: a literal '0' not immediately followed by a dot is a complete
standalone Integer token; consequently "0123" lexes as Integer "0" then
Integer "123", while "123" lexes as the single Integer "123". -/
theorem thm_C3 :
    (∀ (text : List Char) (i : Nat), peekC text i = some '0' →
      ¬(peekC text (i + 1) = some '.') →
      lex_integer text i = (some (TokenType.INTEGER, ['0']), i + 1)) ∧
    tokenize (String.toList "0123") =
      [(TokenType.INTEGER, ['0']), (TokenType.INTEGER, ['1', '2', '3']),
       (TokenType.EOF, [])] ∧
    tokenize (String.toList "123") =
      [(TokenType.INTEGER, ['1', '2', '3']), (TokenType.EOF, [])] := by
  refine ⟨fun text i h hdot => ?_, by decide, by decide⟩
  simp only [lex_integer]
  rw [if_pos (by unfold peek_is; rw [h]; decide), if_pos h, if_neg hdot,
    substr_one text i '0' h]

theorem thm_C3_witness :
    lex_integer (String.toList "01") 0 =
      (some (TokenType.INTEGER, ['0']), 1) :=
  thm_C3.1 (String.toList "01") 0 (by decide) (by decide)

/-- C7: tokenizing "while x == 10" yields Keyword "while", Identifier "x",
Operator "==" (as one two-character token), Integer "10", then EndOfInput. -/
theorem thm_C7 :
    tokenize (String.toList "while x == 10") =
      [(TokenType.KEYWORD, String.toList "while"),
       (TokenType.IDENTIFIER, ['x']),
       (TokenType.OPERATOR, ['=', '=']),
       (TokenType.INTEGER, ['1', '0']),
       (TokenType.EOF, [])] := by decide

/-- C8: on empty input the very first call to next_token returns EndOfInput
with an empty lexeme (and the whole stream is that one token); and whenever
next_token returns EndOfInput its lexeme is empty and the call at the
returned cursor returns EndOfInput with an empty lexeme and the same cursor
again, so every subsequent call keeps returning EndOfInput. -/
theorem thm_C8 :
    next_token ([] : List Char) 0 = (TokenType.EOF, [], 0) ∧
    tokenize ([] : List Char) = [(TokenType.EOF, [])] ∧
    ∀ (text : List Char) (i j : Nat) (lx : List Char),
      next_token text i = (TokenType.EOF, lx, j) →
      lx = [] ∧ next_token text j = (TokenType.EOF, [], j) :=
  ⟨by decide, by decide,
   fun text i j lx h => next_token_eof_stable text i j lx h⟩

theorem thm_C8_witness :
    ([] : List Char) = [] ∧
    next_token (String.toList "a") 1 = (TokenType.EOF, [], 1) :=
  (thm_C8.2.2 (String.toList "a") 1 1 [] (by decide))

/-- C9: every call to next_token that returns a token other than EndOfInput
strictly advances the cursor, and consequently a full tokenization contains
at most length-of-buffer tokens other than EndOfInput. -/
theorem thm_C9 :
    (∀ (text : List Char) (i i2 : Nat) (t : TokenType) (lx : List Char),
      next_token text i = (t, lx, i2) → t ≠ TokenType.EOF → i < i2) ∧
    ∀ (text : List Char),
      ((tokenize text).filter (fun p => p.1 ≠ TokenType.EOF)).length ≤
        text.length := by
  constructor
  · intro text i i2 t lx h ht
    obtain ⟨_, _, _, hneof⟩ := next_token_spec text i i2 t lx h
    have hge : i ≤ skip_whitespace text i := scanWhile_ge is_space text i
    obtain ⟨hadv, _⟩ := hneof ht
    omega
  · intro text
    have h := tokensFuel_count (text.length + 1) text 0 (by omega) (by omega)
    unfold tokenize
    simpa using h

theorem thm_C9_witness :
    (0 : Nat) < 1 ∧
    ((tokenize (String.toList "ab")).filter
      (fun p => p.1 ≠ TokenType.EOF)).length ≤ (String.toList "ab").length :=
  ⟨thm_C9.1 (String.toList "a") 0 1 TokenType.IDENTIFIER ['a'] (by decide)
    (by decide),
   thm_C9.2 (String.toList "ab")⟩

/-- C4: the recognizers are attempted in the exact order real, integer,
identifier/keyword, string, operator/separator, each receiving the position
saved before the attempt; a failing recognizer leaves the cursor exactly at
that saved position (no observable state change), and the source dispatch
loop coincides with the spec-side priority dispatcher. -/
theorem thm_C4 (text : List Char) (i : Nat) :
    (∀ j, lex_real text i = (none, j) → j = i) ∧
    (∀ j, lex_integer text i = (none, j) → j = i) ∧
    (∀ j, lex_identifier text i = (none, j) → j = i) ∧
    (∀ j, lex_string text i = (none, j) → j = i) ∧
    (∀ j, lex_operator_or_separator text i = (none, j) → j = i) ∧
    try_recognizers text i = dispatch_spec text i := by
  refine ⟨fun j h => lex_real_frame text i j h,
    fun j h => lex_integer_frame text i j h,
    fun j h => lex_identifier_frame text i j h,
    fun j h => lex_string_frame text i j h,
    fun j h => lex_operator_or_separator_frame text i j h, ?_⟩
  unfold try_recognizers dispatch_spec
  rcases h1 : lex_real text i with ⟨_ | ⟨t1, l1⟩, j1⟩
  swap
  · simp [packR]
  rcases h2 : lex_integer text i with ⟨_ | ⟨t2, l2⟩, j2⟩
  swap
  · simp [packR]
  rcases h3 : lex_identifier text i with ⟨_ | ⟨t3, l3⟩, j3⟩
  swap
  · simp [packR]
  rcases h4 : lex_string text i with ⟨_ | ⟨t4, l4⟩, j4⟩
  swap
  · simp [packR]
  rcases h5 : lex_operator_or_separator text i with ⟨_ | ⟨t5, l5⟩, j5⟩
  · simp [packR]
  · simp [packR]

theorem thm_C4_witness :
    (0 : Nat) = 0 ∧
    try_recognizers (String.toList "+x") 0 =
      dispatch_spec (String.toList "+x") 0 :=
  ⟨(thm_C4 (String.toList "+x") 0).1 0 (by decide),
   (thm_C4 (String.toList "+x") 0).2.2.2.2.2⟩

/-- C5: at a "/*" with no closing "*/" anywhere after it, the comment
recognizer still returns a Comment token whose lexeme runs from the "/*"
through the end of the input and leaves the cursor at end-of-input; when a
first closing "*/" exists the lexeme extends through and includes it. -/
theorem thm_C5 (text : List Char) (i : Nat)
    (h1 : peekC text i = some '/') (h2 : peekC text (i + 1) = some '*') :
    ∃ j2, skip_comments text i =
        some (TokenType.COMMENT, substr text i j2, j2) ∧
      ((∀ k, i + 2 ≤ k →
          ¬(peekC text k = some '*' ∧ peekC text (k + 1) = some '/')) →
        j2 = text.length ∧ substr text i j2 = text.drop i) ∧
      (∀ k, i + 2 ≤ k → peekC text k = some '*' →
        peekC text (k + 1) = some '/' →
        (∀ m, i + 2 ≤ m → m < k →
          ¬(peekC text m = some '*' ∧ peekC text (m + 1) = some '/')) →
        j2 = k + 2 ∧ substr text i j2 = substr text i k ++ ['*', '/']) := by
  have hlt2 : i + 1 < text.length := peekC_some_lt _ _ _ h2
  have hc1 : ¬(peekC text i = some '/' ∧ peekC text (i + 1) = some '/') := by
    rintro ⟨_, hx⟩
    rw [h2] at hx
    simp at hx
  refine ⟨if block_scan text (i + 2) < text.length then
      block_scan text (i + 2) + 2 else block_scan text (i + 2), ?_, ?_, ?_⟩
  · simp only [skip_comments, if_neg hc1, if_pos (And.intro h1 h2)]
  · intro hno
    have hb : block_scan text (i + 2) = text.length :=
      block_scan_no_close text (i + 2) hno (by omega)
    rw [hb, if_neg (lt_irrefl text.length)]
    exact ⟨rfl, substr_drop_of_ge text i text.length (le_refl _)⟩
  · intro k hk hpk hpk2 hmin
    have hb : block_scan text (i + 2) = k :=
      block_scan_close text (i + 2) k hk hpk hpk2 hmin
    have hkl : k < text.length := peekC_some_lt _ _ _ hpk
    rw [hb, if_pos hkl]
    refine ⟨rfl, ?_⟩
    rw [substr_split text i k (k + 2) (by omega) (by omega),
      substr_two text k '*' '/' hpk hpk2]

theorem thm_C5_witness :
    ∃ j2, skip_comments (String.toList "/*a") 0 =
        some (TokenType.COMMENT, substr (String.toList "/*a") 0 j2, j2) ∧
      ((∀ k, 0 + 2 ≤ k →
          ¬(peekC (String.toList "/*a") k = some '*' ∧
            peekC (String.toList "/*a") (k + 1) = some '/')) →
        j2 = (String.toList "/*a").length ∧
          substr (String.toList "/*a") 0 j2 = (String.toList "/*a").drop 0) ∧
      (∀ k, 0 + 2 ≤ k → peekC (String.toList "/*a") k = some '*' →
        peekC (String.toList "/*a") (k + 1) = some '/' →
        (∀ m, 0 + 2 ≤ m → m < k →
          ¬(peekC (String.toList "/*a") m = some '*' ∧
            peekC (String.toList "/*a") (m + 1) = some '/')) →
        j2 = k + 2 ∧ substr (String.toList "/*a") 0 j2 =
          substr (String.toList "/*a") 0 k ++ ['*', '/']) :=
  thm_C5 (String.toList "/*a") 0 (by decide) (by decide)

/-- C6: a string scan started at an opening quote always returns a String
token whose lexeme is the exact consumed substring; if the first stopping
character is a closing quote it is consumed and included, if it is a newline
the scan stops without consuming it and the lexeme is the opening quote plus
the content before the newline with no closing quote in it, and at
end-of-input the lexeme runs through the end of the input. -/
theorem thm_C6 (text : List Char) (i : Nat) (h : peekC text i = some '"') :
    ∃ j2, lex_string text i =
        (some (TokenType.STRING, substr text i j2), j2) ∧ i < j2 ∧
      (peekC text (string_scan text (i + 1)) = some '"' →
        j2 = string_scan text (i + 1) + 1 ∧
        substr text i j2 = substr text i (string_scan text (i + 1)) ++ ['"']) ∧
      (peekC text (string_scan text (i + 1)) = some '\n' →
        j2 = string_scan text (i + 1) ∧
        substr text i j2 =
          '"' :: substr text (i + 1) (string_scan text (i + 1)) ∧
        ∀ c, c ∈ substr text (i + 1) (string_scan text (i + 1)) →
          c ≠ '"' ∧ c ≠ '\n') ∧
      (string_scan text (i + 1) = text.length →
        j2 = text.length ∧ substr text i j2 = text.drop i) := by
  have hlt : i < text.length := peekC_some_lt _ _ _ h
  have hge : i + 1 ≤ string_scan text (i + 1) := scanWhile_ge _ text (i + 1)
  have hmem : ∀ c, c ∈ substr text (i + 1) (string_scan text (i + 1)) →
      c ≠ '"' ∧ c ≠ '\n' := by
    intro c hc
    unfold string_scan at hc
    rw [substr_scanWhile] at hc
    have hp := List.mem_takeWhile_imp hc
    simp only [Bool.and_eq_true, bne_iff_ne] at hp
    exact hp
  refine ⟨if peekC text (string_scan text (i + 1)) = some '"' then
      string_scan text (i + 1) + 1 else string_scan text (i + 1),
    ?_, ?_, ?_, ?_, ?_⟩
  · simp only [lex_string, if_pos h]
  · split <;> omega
  · intro hq
    rw [if_pos hq]
    exact ⟨rfl, by
      rw [substr_split text i (string_scan text (i + 1))
          (string_scan text (i + 1) + 1) (by omega) (by omega),
        substr_one text (string_scan text (i + 1)) '"' hq]⟩
  · intro hn
    rw [if_neg (by rw [hn]; simp)]
    refine ⟨rfl, ?_, hmem⟩
    rw [substr_split text i (i + 1) (string_scan text (i + 1)) (by omega) hge,
      substr_one text i '"' h]
    rfl
  · intro hend
    have hq : ¬(peekC text (string_scan text (i + 1)) = some '"') := by
      rw [hend]
      unfold peekC
      rw [List.getElem?_eq_none_iff.mpr (le_refl _)]
      simp
    rw [if_neg hq, hend]
    exact ⟨rfl, substr_drop_of_ge text i text.length (le_refl _)⟩

theorem thm_C6_witness :
    ∃ j2, lex_string (String.toList "\"ab") 0 =
        (some (TokenType.STRING, substr (String.toList "\"ab") 0 j2), j2) ∧
      0 < j2 ∧
      (peekC (String.toList "\"ab")
          (string_scan (String.toList "\"ab") (0 + 1)) = some '"' →
        j2 = string_scan (String.toList "\"ab") (0 + 1) + 1 ∧
        substr (String.toList "\"ab") 0 j2 =
          substr (String.toList "\"ab") 0
            (string_scan (String.toList "\"ab") (0 + 1)) ++ ['"']) ∧
      (peekC (String.toList "\"ab")
          (string_scan (String.toList "\"ab") (0 + 1)) = some '\n' →
        j2 = string_scan (String.toList "\"ab") (0 + 1) ∧
        substr (String.toList "\"ab") 0 j2 =
          '"' :: substr (String.toList "\"ab") (0 + 1)
            (string_scan (String.toList "\"ab") (0 + 1)) ∧
        ∀ c, c ∈ substr (String.toList "\"ab") (0 + 1)
            (string_scan (String.toList "\"ab") (0 + 1)) →
          c ≠ '"' ∧ c ≠ '\n') ∧
      (string_scan (String.toList "\"ab") (0 + 1) =
          (String.toList "\"ab").length →
        j2 = (String.toList "\"ab").length ∧
        substr (String.toList "\"ab") 0 j2 =
          (String.toList "\"ab").drop 0) :=
  thm_C6 (String.toList "\"ab") 0 (by decide)

/-- C10: an input that is a digit run with a nonzero leading digit followed
immediately by a letter lexes as an Integer token for the whole digit run
followed by an Identifier or Keyword token for the maximal
letter/digit/underscore run that follows — digit-letter adjacency never
produces an Unknown token; and the integer recognizer discards a matched
digit run exactly when the character following the match is a dot. -/
theorem thm_C10 (d0 : Char) (ds : List Char) (c : Char) (rest : List Char)
    (hd0 : is_digit d0 = true) (hne0 : d0 ≠ '0')
    (hds : ∀ d ∈ ds, is_digit d = true) (hc : is_letter c = true) :
    next_token ((d0 :: ds) ++ c :: rest) 0 =
      (TokenType.INTEGER, d0 :: ds, (d0 :: ds).length) ∧
    (∃ k lx, next_token ((d0 :: ds) ++ c :: rest) (d0 :: ds).length =
        (k, lx, (d0 :: ds).length + lx.length) ∧
      (k = TokenType.IDENTIFIER ∨ k = TokenType.KEYWORD) ∧
      lx = (c :: rest).takeWhile (fun ch => is_alnum ch || ch = '_')) ∧
    (∀ (text2 : List Char) (i2 : Nat) (ch : Char),
      peekC text2 i2 = some ch → is_digit ch = true →
      ((lex_integer text2 i2).1 = none ↔
        peekC text2 (if ch = '0' then i2 + 1 else digit_scan text2 (i2 + 1)) =
          some '.')) := by
  have hcAlpha : c.isAlpha = true := hc
  have hcnd : is_digit c = false := alpha_not_digit c hc
  have hall : ∀ d ∈ d0 :: ds, is_digit d = true := by
    intro d hd
    rcases List.mem_cons.mp hd with h | h
    · subst h; exact hd0
    · exact hds d h
  have hpeek0 : peekC ((d0 :: ds) ++ c :: rest) 0 = some d0 := by
    simp [peekC]
  have hpeekL : peekC ((d0 :: ds) ++ c :: rest) (d0 :: ds).length = some c := by
    unfold peekC
    rw [List.getElem?_append_right (le_refl _)]
    simp
  have hLlt : (d0 :: ds).length < ((d0 :: ds) ++ c :: rest).length :=
    peekC_some_lt _ _ _ hpeekL
  have hdotL : ¬(peekC ((d0 :: ds) ++ c :: rest) (d0 :: ds).length = some '.') := by
    rw [hpeekL]
    intro hx
    exact alpha_ne_of c '.' hc (by decide) (Option.some.inj hx)
  refine ⟨?_, ?_, ?_⟩
  · have htw : ((c :: rest).takeWhile is_digit) = [] := by
      rw [List.takeWhile_cons, if_neg (by simp [hcnd])]
    have hdscan0 : digit_scan ((d0 :: ds) ++ c :: rest) 0 = (d0 :: ds).length := by
      unfold digit_scan
      rw [scanWhile_eq, List.drop_zero,
        List.takeWhile_append_of_pos (by intro a ha; exact hall a ha), htw]
      simp
    have hdscan1 : digit_scan ((d0 :: ds) ++ c :: rest) (0 + 1) = (d0 :: ds).length := by
      unfold digit_scan
      rw [scanWhile_eq]
      have hdrop : ((d0 :: ds) ++ c :: rest).drop (0 + 1) = ds ++ c :: rest := rfl
      rw [hdrop, List.takeWhile_append_of_pos (by intro a ha; exact hds a ha), htw]
      simp only [List.append_nil, List.length_cons]
      omega
    have hreal : lex_real ((d0 :: ds) ++ c :: rest) 0 = (none, 0) := by
      simp only [lex_real]
      rw [if_pos (show peek_is is_digit ((d0 :: ds) ++ c :: rest) 0 = true by
        unfold peek_is; rw [hpeek0]; exact hd0), hdscan0, if_neg hdotL]
    have hslash : d0 ≠ '/' := digit_ne_of d0 '/' hd0 (by decide)
    have hA : ¬(peekC ((d0 :: ds) ++ c :: rest) 0 = some '/' ∧
        peekC ((d0 :: ds) ++ c :: rest) (0 + 1) = some '/') := by
      rintro ⟨hx, _⟩
      rw [hpeek0] at hx
      exact hslash (Option.some.inj hx)
    have hB : ¬(peekC ((d0 :: ds) ++ c :: rest) 0 = some '/' ∧
        peekC ((d0 :: ds) ++ c :: rest) (0 + 1) = some '*') := by
      rintro ⟨hx, _⟩
      rw [hpeek0] at hx
      exact hslash (Option.some.inj hx)
    have hsc : skip_comments ((d0 :: ds) ++ c :: rest) 0 = none := by
      simp only [skip_comments, if_neg hA, if_neg hB]
    have hsub : substr ((d0 :: ds) ++ c :: rest) 0 (d0 :: ds).length = d0 :: ds := by
      unfold substr
      rw [List.drop_zero]
      have h0 : (d0 :: ds).length - 0 = (d0 :: ds).length := by omega
      rw [h0]
      exact List.take_left (d0 :: ds) (c :: rest)
    have hint : lex_integer ((d0 :: ds) ++ c :: rest) 0 =
        (some (TokenType.INTEGER, d0 :: ds), (d0 :: ds).length) := by
      simp only [lex_integer]
      rw [if_pos (show peek_is is_digit ((d0 :: ds) ++ c :: rest) 0 = true by
          unfold peek_is; rw [hpeek0]; exact hd0),
        if_neg (show ¬(peekC ((d0 :: ds) ++ c :: rest) 0 = some '0') by
          rw [hpeek0]; intro hx; exact hne0 (Option.some.inj hx)),
        if_pos (show peek_in_nonzero ((d0 :: ds) ++ c :: rest) 0 = true by
          unfold peek_in_nonzero
          rw [hpeek0]
          simp only [List.contains, List.elem_eq_mem, decide_eq_true_iff]
          exact digit_mem_nonzero d0 hd0 hne0),
        hdscan1, if_neg hdotL, hsub]
    have htr : try_recognizers ((d0 :: ds) ++ c :: rest) 0 =
        some (TokenType.INTEGER, d0 :: ds, (d0 :: ds).length) := by
      simp only [try_recognizers, hreal, hint]
    have hsw : skip_whitespace ((d0 :: ds) ++ c :: rest) 0 = 0 :=
      scanWhile_none is_space _ 0 d0 hpeek0 (digit_not_space d0 hd0)
    have h0lt : 0 < ((d0 :: ds) ++ c :: rest).length := by simp
    simp only [next_token, hsw, hsc, htr, h0lt, if_true]
  · have hswL : skip_whitespace ((d0 :: ds) ++ c :: rest) (d0 :: ds).length =
        (d0 :: ds).length :=
      scanWhile_none is_space _ _ c hpeekL (alpha_not_space c hc)
    have hcslash : c ≠ '/' := alpha_ne_of c '/' hc (by decide)
    have hA : ¬(peekC ((d0 :: ds) ++ c :: rest) (d0 :: ds).length = some '/' ∧
        peekC ((d0 :: ds) ++ c :: rest) ((d0 :: ds).length + 1) = some '/') := by
      rintro ⟨hx, _⟩
      rw [hpeekL] at hx
      exact hcslash (Option.some.inj hx)
    have hB : ¬(peekC ((d0 :: ds) ++ c :: rest) (d0 :: ds).length = some '/' ∧
        peekC ((d0 :: ds) ++ c :: rest) ((d0 :: ds).length + 1) = some '*') := by
      rintro ⟨hx, _⟩
      rw [hpeekL] at hx
      exact hcslash (Option.some.inj hx)
    have hscL : skip_comments ((d0 :: ds) ++ c :: rest) (d0 :: ds).length = none := by
      simp only [skip_comments, if_neg hA, if_neg hB]
    have hpkdL : peek_is is_digit ((d0 :: ds) ++ c :: rest) (d0 :: ds).length = false := by
      unfold peek_is
      rw [hpeekL]
      exact hcnd
    have hrealL : lex_real ((d0 :: ds) ++ c :: rest) (d0 :: ds).length =
        (none, (d0 :: ds).length) := by
      simp only [lex_real]
      rw [if_neg (by rw [hpkdL]; simp)]
    have hintL : lex_integer ((d0 :: ds) ++ c :: rest) (d0 :: ds).length =
        (none, (d0 :: ds).length) := by
      simp only [lex_integer]
      rw [if_neg (by rw [hpkdL]; simp)]
    have hdropL : ((d0 :: ds) ++ c :: rest).drop (d0 :: ds).length = c :: rest :=
      List.drop_left (d0 :: ds) (c :: rest)
    have hdropL1 : ((d0 :: ds) ++ c :: rest).drop ((d0 :: ds).length + 1) = rest := by
      have h2 : (((d0 :: ds) ++ c :: rest).drop (d0 :: ds).length).drop 1 =
          ((d0 :: ds) ++ c :: rest).drop ((d0 :: ds).length + 1) := by
        rw [List.drop_drop]
      rw [← h2, hdropL]
      rfl
    have hig : (d0 :: ds).length + 1 ≤
        ident_scan ((d0 :: ds) ++ c :: rest) ((d0 :: ds).length + 1) :=
      scanWhile_ge _ _ _
    have hiscanL : ident_scan ((d0 :: ds) ++ c :: rest) ((d0 :: ds).length + 1) =
        (d0 :: ds).length + 1 +
          ((rest.takeWhile (fun ch => is_alnum ch || ch = '_')).length) := by
      unfold ident_scan
      rw [scanWhile_eq, hdropL1]
    have htwc : (c :: rest).takeWhile (fun ch => is_alnum ch || ch = '_') =
        c :: rest.takeWhile (fun ch => is_alnum ch || ch = '_') := by
      rw [List.takeWhile_cons, if_pos (by simp [is_alnum, Char.isAlphanum, hcAlpha])]
    have hsubL : substr ((d0 :: ds) ++ c :: rest) (d0 :: ds).length
        (ident_scan ((d0 :: ds) ++ c :: rest) ((d0 :: ds).length + 1)) =
        (c :: rest).takeWhile (fun ch => is_alnum ch || ch = '_') := by
      rw [substr_split ((d0 :: ds) ++ c :: rest) (d0 :: ds).length
          ((d0 :: ds).length + 1)
          (ident_scan ((d0 :: ds) ++ c :: rest) ((d0 :: ds).length + 1))
          (by omega) hig,
        substr_one ((d0 :: ds) ++ c :: rest) (d0 :: ds).length c hpeekL]
      unfold ident_scan
      rw [substr_scanWhile, hdropL1, htwc]
      rfl
    have hlen2 : ident_scan ((d0 :: ds) ++ c :: rest) ((d0 :: ds).length + 1) =
        (d0 :: ds).length +
          ((c :: rest).takeWhile (fun ch => is_alnum ch || ch = '_')).length := by
      rw [hiscanL, htwc]
      simp only [List.length_cons]
      omega
    have hletterL : peek_is is_letter ((d0 :: ds) ++ c :: rest)
        (d0 :: ds).length = true := by
      unfold peek_is
      rw [hpeekL]
      exact hc
    by_cases hkw : substr ((d0 :: ds) ++ c :: rest) (d0 :: ds).length
        (ident_scan ((d0 :: ds) ++ c :: rest) ((d0 :: ds).length + 1)) ∈ KEYWORDS
    · have hidL : lex_identifier ((d0 :: ds) ++ c :: rest) (d0 :: ds).length =
          (some (TokenType.KEYWORD,
            substr ((d0 :: ds) ++ c :: rest) (d0 :: ds).length
              (ident_scan ((d0 :: ds) ++ c :: rest) ((d0 :: ds).length + 1))),
            ident_scan ((d0 :: ds) ++ c :: rest) ((d0 :: ds).length + 1)) := by
        simp only [lex_identifier]
        rw [if_pos hletterL, if_pos hkw]
      have htrL : try_recognizers ((d0 :: ds) ++ c :: rest) (d0 :: ds).length =
          some (TokenType.KEYWORD,
            substr ((d0 :: ds) ++ c :: rest) (d0 :: ds).length
              (ident_scan ((d0 :: ds) ++ c :: rest) ((d0 :: ds).length + 1)),
            ident_scan ((d0 :: ds) ++ c :: rest) ((d0 :: ds).length + 1)) := by
        simp only [try_recognizers, hrealL, hintL, hidL]
      refine ⟨TokenType.KEYWORD,
        (c :: rest).takeWhile (fun ch => is_alnum ch || ch = '_'),
        ?_, Or.inr rfl, rfl⟩
      simp only [next_token, hswL, hscL, htrL, hLlt, if_true]
      rw [hsubL, hlen2]
    · have hidL : lex_identifier ((d0 :: ds) ++ c :: rest) (d0 :: ds).length =
          (some (TokenType.IDENTIFIER,
            substr ((d0 :: ds) ++ c :: rest) (d0 :: ds).length
              (ident_scan ((d0 :: ds) ++ c :: rest) ((d0 :: ds).length + 1))),
            ident_scan ((d0 :: ds) ++ c :: rest) ((d0 :: ds).length + 1)) := by
        simp only [lex_identifier]
        rw [if_pos hletterL, if_neg hkw]
      have htrL : try_recognizers ((d0 :: ds) ++ c :: rest) (d0 :: ds).length =
          some (TokenType.IDENTIFIER,
            substr ((d0 :: ds) ++ c :: rest) (d0 :: ds).length
              (ident_scan ((d0 :: ds) ++ c :: rest) ((d0 :: ds).length + 1)),
            ident_scan ((d0 :: ds) ++ c :: rest) ((d0 :: ds).length + 1)) := by
        simp only [try_recognizers, hrealL, hintL, hidL]
      refine ⟨TokenType.IDENTIFIER,
        (c :: rest).takeWhile (fun ch => is_alnum ch || ch = '_'),
        ?_, Or.inl rfl, rfl⟩
      simp only [next_token, hswL, hscL, htrL, hLlt, if_true]
      rw [hsubL, hlen2]
  · intro text2 i2 ch hpk hdig
    simp only [lex_integer]
    rw [if_pos (show peek_is is_digit text2 i2 = true by
      unfold peek_is; rw [hpk]; exact hdig)]
    by_cases hz : ch = '0'
    · subst hz
      rw [if_pos hpk, if_pos rfl]
      by_cases hdot : peekC text2 (i2 + 1) = some '.'
      · rw [if_pos hdot]; simpa using hdot
      · rw [if_neg hdot]; simpa using hdot
    · rw [if_neg (show ¬(peekC text2 i2 = some '0') by
          rw [hpk]; intro hx; exact hz (Option.some.inj hx)),
        if_pos (show peek_in_nonzero text2 i2 = true by
          unfold peek_in_nonzero
          rw [hpk]
          simp only [List.contains, List.elem_eq_mem, decide_eq_true_iff]
          exact digit_mem_nonzero ch hdig hz),
        if_neg hz]
      by_cases hdot : peekC text2 (digit_scan text2 (i2 + 1)) = some '.'
      · rw [if_pos hdot]; simpa using hdot
      · rw [if_neg hdot]; simpa using hdot

theorem thm_C10_witness :
    next_token (('1' :: ['2']) ++ 'a' :: ['b']) 0 =
      (TokenType.INTEGER, '1' :: ['2'], ('1' :: ['2']).length) ∧
    (∃ k lx, next_token (('1' :: ['2']) ++ 'a' :: ['b']) ('1' :: ['2']).length =
        (k, lx, ('1' :: ['2']).length + lx.length) ∧
      (k = TokenType.IDENTIFIER ∨ k = TokenType.KEYWORD) ∧
      lx = ('a' :: ['b']).takeWhile (fun ch => is_alnum ch || ch = '_')) ∧
    (∀ (text2 : List Char) (i2 : Nat) (ch : Char),
      peekC text2 i2 = some ch → is_digit ch = true →
      ((lex_integer text2 i2).1 = none ↔
        peekC text2 (if ch = '0' then i2 + 1 else digit_scan text2 (i2 + 1)) =
          some '.')) :=
  thm_C10 '1' ['2'] 'a' ['b'] (by decide) (by decide)
    (by intro d hd; simp at hd; subst hd; decide) (by decide)
